import Mathlib

/-!
# Verification of the arduino repository against its specification

Shallow embedding of three subsystems:

* `simulator` — the hardware pin-state simulator (`src/simulator/backend/src/board.cpp`).
  C++ `double` analog levels are modelled as exact rationals `ℚ`; the decay factor
  `0.95` becomes `19/20`.  The `std::unordered_map` of scheduled ramps is modelled as
  an association list with insert-or-replace, which preserves key uniqueness; the
  restore loop touches each key once, so iteration order is irrelevant.
* `Hra` — the `HumanReadableApi` line dispatcher
  (`src/Arduino/libraries/HumanReadableApi/HumanReadableApi.cpp`).  The serial
  stream and command handlers are host-side; the model records the observable
  action (handler invocation by index / error print / silence) and, for `poll`,
  the log of buffer writes.
* `typthon` — the TypthonMini interpreter.  Only the header
  (`src/Arduino/libraries/TypthonMini/src/TypthonMini.h`) is in the repository;
  every executable definition in that namespace is modelled from the
  specification (section references inline) and is marked as such.

Set-like operations (`Except`) model C++ `throw std::out_of_range`.
-/

namespace simulator

/-- Pin mode, from `include/simulator/board.hpp`. -/
inductive PinMode where
  | Input
  | Output
  | AnalogIn
  | AnalogOut
deriving DecidableEq, Repr

/-- Pin state, from `include/simulator/board.hpp`; `double` modelled as `ℚ`. -/
structure PinState where
  mode : PinMode := PinMode.Input
  digital_level : Bool := false
  analog_level : ℚ := 0
deriving DecidableEq, Repr

/-- Board state, from `include/simulator/board.hpp`.  `scheduled_ramps_` is an
`unordered_map<size_t, double>` modelled as an association list with unique keys. -/
structure Board where
  name : String
  digital_pins : List PinState
  analog_pins : List PinState
  scheduled_ramps : List (Nat × ℚ)
deriving DecidableEq, Repr

/-- `Board::Board(name, digital_pins, analog_pins)`: vectors of default pins. -/
def mkBoard (name : String) (digital analog : Nat) : Board :=
  { name := name
    digital_pins := List.replicate digital {}
    analog_pins := List.replicate analog {}
    scheduled_ramps := [] }

/-- `pins[i].mode = m` (guarded element update used by `set_pin_mode`). -/
def setModeAt (pins : List PinState) (i : Nat) (m : PinMode) : List PinState :=
  match pins[i]? with
  | some p => pins.set i { p with mode := m }
  | none => pins

/-- `pins[i].analog_level = v` (element update used by the restore loop of `tick`). -/
def setLevelAt (pins : List PinState) (i : Nat) (v : ℚ) : List PinState :=
  match pins[i]? with
  | some p => pins.set i { p with analog_level := v }
  | none => pins

/-- `pins[i].mode = AnalogOut; pins[i].analog_level = v` (used by `write_analog`). -/
def setAnalogWriteAt (pins : List PinState) (i : Nat) (v : ℚ) : List PinState :=
  match pins[i]? with
  | some p => pins.set i { p with mode := PinMode.AnalogOut, analog_level := v }
  | none => pins

/-- `scheduled_ramps_[index] = level`: insert-or-replace on the association list. -/
def setRamp : List (Nat × ℚ) → Nat → ℚ → List (Nat × ℚ)
  | [], i, v => [(i, v)]
  | (j, w) :: t, i, v => if j = i then (i, v) :: t else (j, w) :: setRamp t i v

/-- Association-list lookup for the scheduled-ramps map. -/
def lookupRamp : List (Nat × ℚ) → Nat → Option ℚ
  | [], _ => Option.none
  | (j, w) :: t, i => if j = i then some w else lookupRamp t i

/-- `Board::set_pin_mode` (board.cpp lines 12–22): digital range is checked first,
then the analog range, else `throw std::out_of_range`. -/
def set_pin_mode (b : Board) (index : Nat) (mode : PinMode) : Except String Board :=
  if index < b.digital_pins.length then
    Except.ok { b with digital_pins := setModeAt b.digital_pins index mode }
  else if index < b.analog_pins.length then
    Except.ok { b with analog_pins := setModeAt b.analog_pins index mode }
  else
    Except.error "Invalid pin index"

/-- `Board::write_digital` (board.cpp lines 24–28). -/
def write_digital (b : Board) (index : Nat) (level : Bool) : Except String Board :=
  if index < b.digital_pins.length then
    Except.ok { b with digital_pins :=
      match b.digital_pins[index]? with
      | some p => b.digital_pins.set index { p with mode := PinMode.Output, digital_level := level }
      | none => b.digital_pins }
  else Except.error "Digital pin index out of range"

/-- `Board::read_digital` (board.cpp lines 30–33). -/
def read_digital (b : Board) (index : Nat) : Except String Bool :=
  match b.digital_pins[index]? with
  | some p => Except.ok p.digital_level
  | none => Except.error "Digital pin index out of range"

/-- `Board::write_analog` (board.cpp lines 35–40): validate, set mode `AnalogOut`,
set the level, and record the ramp target. -/
def write_analog (b : Board) (index : Nat) (level : ℚ) : Except String Board :=
  if index < b.analog_pins.length then
    Except.ok { b with
      analog_pins := setAnalogWriteAt b.analog_pins index level
      scheduled_ramps := setRamp b.scheduled_ramps index level }
  else Except.error "Analog pin index out of range"

/-- `Board::read_analog` (board.cpp lines 42–45). -/
def read_analog (b : Board) (index : Nat) : Except String ℚ :=
  match b.analog_pins[index]? with
  | some p => Except.ok p.analog_level
  | none => Except.error "Analog pin index out of range"

/-- The decay factor `0.95` of `Board::tick` as an exact rational. -/
def decay_factor : ℚ := 19 / 20

/-- The decay applied by the first loop of `Board::tick` to one pin. -/
def decayPin (p : PinState) : PinState :=
  if p.mode = PinMode.AnalogOut then { p with analog_level := p.analog_level * decay_factor }
  else p

/-- One iteration of the restore loop of `Board::tick`: a scheduled ramp whose
index is in range is written back to its target value. -/
def restoreStep (pins : List PinState) (e : Nat × ℚ) : List PinState :=
  if e.1 < pins.length then setLevelAt pins e.1 e.2 else pins

/-- `Board::tick` (board.cpp lines 47–63): decay every `AnalogOut` pin by `0.95`,
then restore every scheduled ramp (whose index is in range) to its target. -/
def tick (b : Board) : Board :=
  { b with analog_pins := b.scheduled_ramps.foldl restoreStep (b.analog_pins.map decayPin) }

end simulator

namespace Hra

/-- The observable effect of one `handleLine`/`dispatchTokens` run: silence (no
token), invocation of the handler of the command at `idx` with `(argc, argv)`,
or the `"ERR: Unknown command"` print. -/
inductive HraAction where
  | silent
  | invoked (idx : Nat) (argc : Nat) (argv : List String)
  | unknownErr
deriving DecidableEq, Repr

/-- The tokenizing loop of `HumanReadableApi::handleLine` (HumanReadableApi.cpp
lines 39–46): skip spaces, record the token up to the next space or end, repeat
while characters remain and fewer than `budget` tokens were taken (the source
caps `argc` at 10). -/
def splitTokens : Nat → List Char → List (List Char)
  | 0, _ => []
  | budget + 1, cs =>
    let cs' := cs.dropWhile (· = ' ')
    match cs' with
    | [] => []
    | _ :: _ =>
      let word := cs'.takeWhile (· ≠ ' ')
      let rest := cs'.dropWhile (· ≠ ' ')
      word :: splitTokens budget (match rest with | [] => [] | _ :: t => t)

/-- The lookup loop of `HumanReadableApi::dispatchTokens` (lines 54–59): index of
the first registered command whose name equals the token. -/
def findCommand : List String → String → Option Nat
  | [], _ => Option.none
  | c :: t, nm => if c = nm then some 0 else (findCommand t nm).map (· + 1)

/-- `HumanReadableApi::dispatchTokens` (HumanReadableApi.cpp lines 51–62). -/
def dispatchTokens (cmds : List String) (argv : List String) : HraAction :=
  match argv with
  | [] => HraAction.silent
  | a0 :: _ =>
    match findCommand cmds a0 with
    | some i => HraAction.invoked i argv.length argv
    | Option.none => HraAction.unknownErr

/-- `HumanReadableApi::handleLine` (HumanReadableApi.cpp lines 35–49): tokenize
into at most 10 tokens, then dispatch. -/
def handleLine (cmds : List String) (line : String) : HraAction :=
  dispatchTokens cmds ((splitTokens 10 line.toList).map fun w => String.mk w)

/-- State of the `poll` line accumulator: the buffer bytes and `_len`. -/
structure PollState where
  buffer : List Char
  len : Nat
deriving DecidableEq, Repr

/-- One character step of `HumanReadableApi::poll` (HumanReadableApi.cpp lines
20–31).  Returns the new state, the list of `(index, byte)` buffer writes the
step performed, and the accumulated line contents when a line was handled
(the source calls `handleLine(_buffer)` after writing the terminator).
`bufSize - 1` uses truncated subtraction, matching the C comparison
`_len < (_bufferSize - 1)` after integer promotion (false when `_bufferSize`
is 0). -/
def pollStep (bufSize : Nat) (st : PollState) (c : Char) :
    PollState × List (Nat × Char) × Option (List Char) :=
  if c = '\n' ∨ c = '\r' then
    if 0 < st.len then
      let buf' := st.buffer.set st.len (Char.ofNat 0)
      ({ buffer := buf', len := 0 }, [(st.len, Char.ofNat 0)], some (buf'.take st.len))
    else (st, [], Option.none)
  else
    if st.len < bufSize - 1 then
      ({ buffer := st.buffer.set st.len c, len := st.len + 1 }, [(st.len, c)], Option.none)
    else (st, [], Option.none)

/-- `HumanReadableApi::poll` over a whole list of available input characters:
fold of `pollStep`, collecting all buffer writes and all handled lines. -/
def pollRun (bufSize : Nat) (st : PollState) : List Char →
    PollState × List (Nat × Char) × List (List Char)
  | [] => (st, [], [])
  | c :: cs =>
    let s1 := pollStep bufSize st c
    let s2 := pollRun bufSize s1.1 cs
    (s2.1, s1.2.1 ++ s2.2.1, s1.2.2.toList ++ s2.2.2)

end Hra

namespace typthon

/-- Token type, from `TypthonMini.h` lines 21–35. -/
inductive TokenType where
  | Identifier
  | Number
  | String
  | Keyword
  | Operator
  | Symbol
  | Newline
  | Indent
  | Dedent
  | End
deriving DecidableEq, Repr

/-- Token, from `TypthonMini.h` lines 21–35. -/
structure Token where
  type : TokenType
  text : String
deriving DecidableEq, Repr

/-- Modelled from the spec: the reserved words of §4.2's statement and
expression grammar (`TypthonMini.h` only declares the `Tokenizer`; the
implementation is not in the repository). -/
def keywords : List String :=
  ["def", "return", "break", "continue", "pass", "if", "elif", "else", "while",
   "for", "in", "try", "except", "finally", "with", "import", "from", "raise",
   "assert", "yield", "await", "global", "nonlocal", "class", "lambda", "and",
   "or", "not", "True", "False", "None"]

/-- Modelled from the spec: `Tokenizer` state (`TypthonMini.h` lines 37–55
declares `cursor`, `atLineStart`, `indentStack`, `pending`; the implementation
is not in the repository).  The pending buffer only ever holds synthesized
`Dedent` tokens (§4.1), so it is represented by a count. -/
structure LexState where
  cursor : List Char
  atLineStart : Bool
  indentStack : List Nat
  pendingDedents : Nat
  errorFlag : Bool
deriving DecidableEq, Repr

/-- Initial tokenizer state over a source text. -/
def initLexState (source : String) : LexState :=
  { cursor := source.toList
    atLineStart := true
    indentStack := []
    pendingDedents := 0
    errorFlag := false }

/-- Start character of an identifier (§4.1: identifiers and keywords). -/
def isIdentStart (c : Char) : Bool := c.isAlpha || c = '_'

/-- Continuation character of an identifier. -/
def isIdentChar (c : Char) : Bool := c.isAlphanum || c = '_'

/-- Modelled from the spec: `Tokenizer::readIdentifier` (§4.1). -/
def readIdent (cs : List Char) : String × List Char :=
  (String.mk (cs.takeWhile isIdentChar), cs.dropWhile isIdentChar)

/-- Modelled from the spec: `Tokenizer::readNumber` — digits with at most one
decimal point (§4.1). -/
def readNumber (cs : List Char) : String × List Char :=
  let intPart := cs.takeWhile Char.isDigit
  let rest := cs.dropWhile Char.isDigit
  match rest with
  | '.' :: r2 =>
    (String.mk (intPart ++ '.' :: r2.takeWhile Char.isDigit), r2.dropWhile Char.isDigit)
  | _ => (String.mk intPart, rest)

/-- Modelled from the spec: body of `Tokenizer::readString` — a single
quote-delimited form with minimal escape handling (§4.1): a backslash keeps the
following character; the closing quote ends the literal. -/
def readStr : List Char → List Char × List Char
  | [] => ([], [])
  | '\\' :: c :: t => let p := readStr t; (c :: p.1, p.2)
  | '\'' :: t => ([], t)
  | c :: t => let p := readStr t; (c :: p.1, p.2)

/-- Pop the indent stack down to width `n` (§4.1 "pop-until-match"); returns the
number of pops and the remaining stack, or `none` when `n` is not a width on the
stack (the lexical-error case).  The implicit outermost width is `0`. -/
def popTo : List Nat → Nat → Option (Nat × List Nat)
  | [], n => if n = 0 then some (0, []) else Option.none
  | m :: t, n =>
    if n = m then some (0, m :: t)
    else if n < m then (popTo t n).map (fun p => (p.1 + 1, p.2))
    else Option.none

/-- Classification of a single operator/symbol character (§4.1). -/
def charTokenType (c : Char) : TokenType :=
  if c ∈ ['+', '-', '*', '/', '%', '<', '>', '=', '!'] then TokenType.Operator
  else TokenType.Symbol

/-- Modelled from the spec: end-of-source handling at line start (§4.1): open
blocks are closed one `Dedent` per call, then `End` is returned. -/
def lineEOF (st : LexState) : Token × LexState :=
  match st.indentStack with
  | [] => (⟨TokenType.End, ""⟩, { st with cursor := [] })
  | _ :: t => (⟨TokenType.Dedent, ""⟩, { st with cursor := [], indentStack := t })

/-- Modelled from the spec: the indent comparison on a non-blank logical line
(§4.1): deeper pushes and emits `Indent`; equal keeps scanning; shallower pops
to a matching width (one `Dedent` now, the rest pending) or sets the error
flag when the width is not on the stack. -/
def lineIndent (st : LexState) (rest : List Char) (n : Nat) :
    Sum (Token × LexState) LexState :=
  if st.indentStack.headD 0 < n then
    Sum.inl (⟨TokenType.Indent, ""⟩,
      { st with cursor := rest, atLineStart := false, indentStack := n :: st.indentStack })
  else if n = st.indentStack.headD 0 then
    Sum.inr { st with cursor := rest, atLineStart := false }
  else
    match popTo st.indentStack n with
    | some p =>
      Sum.inl (⟨TokenType.Dedent, ""⟩,
        { st with cursor := rest, atLineStart := false, indentStack := p.2,
                  pendingDedents := p.1 - 1 })
    | Option.none => Sum.inl (⟨TokenType.End, ""⟩, { st with errorFlag := true })

/-- Modelled from the spec: the logical-line-start step of `Tokenizer::next`
(§4.1).  The leading spaces are measured and compared to the indent stack via
`lineIndent`; a blank line or a comment line is skipped without emitting a
token (`Sum.inr`: keep going from the advanced state); end of source defers to
`lineEOF`. -/
def lineStart (st : LexState) : Sum (Token × LexState) LexState :=
  match st.cursor.dropWhile (· = ' ') with
  | [] => Sum.inl (lineEOF st)
  | '\n' :: t => Sum.inr { st with cursor := t }
  | '#' :: t => Sum.inr { st with cursor := ('#' :: t).dropWhile (· ≠ '\n') }
  | _ :: _ =>
    lineIndent st (st.cursor.dropWhile (· = ' ')) (st.cursor.takeWhile (· = ' ')).length

/-- Modelled from the spec: operator/symbol scanning (§4.1): the two-character
operators `==`, `!=`, `<=`, `>=`, `//`, `**` are matched greedily before
single-character operators and symbols. -/
def scanOp (st : LexState) (c : Char) (rest : List Char) : Token × LexState :=
  match c, rest with
  | '=', '=' :: r => (⟨TokenType.Operator, "=="⟩, { st with cursor := r })
  | '!', '=' :: r => (⟨TokenType.Operator, "!="⟩, { st with cursor := r })
  | '<', '=' :: r => (⟨TokenType.Operator, "<="⟩, { st with cursor := r })
  | '>', '=' :: r => (⟨TokenType.Operator, ">="⟩, { st with cursor := r })
  | '/', '/' :: r => (⟨TokenType.Operator, "//"⟩, { st with cursor := r })
  | '*', '*' :: r => (⟨TokenType.Operator, "**"⟩, { st with cursor := r })
  | _, _ => (⟨charTokenType c, String.mk [c]⟩, { st with cursor := rest })

/-- Modelled from the spec: the mid-line scanning step of `Tokenizer::next`
(§4.1): skip spaces, then read one token — newline, string, identifier/keyword,
number, or an operator/symbol via `scanOp`.  A comment is skipped to the end of
the line, and running out of input mid-line returns to the line-start logic
(`Sum.inr`). -/
def scanTok (st : LexState) : Sum (Token × LexState) LexState :=
  match st.cursor.dropWhile (· = ' ') with
  | [] => Sum.inr { st with cursor := [], atLineStart := true }
  | '\n' :: t => Sum.inl (⟨TokenType.Newline, ""⟩, { st with cursor := t, atLineStart := true })
  | '#' :: t => Sum.inr { st with cursor := ('#' :: t).dropWhile (· ≠ '\n') }
  | '\'' :: t =>
    Sum.inl (⟨TokenType.String, String.mk (readStr t).1⟩, { st with cursor := (readStr t).2 })
  | c :: t =>
    if isIdentStart c then
      Sum.inl (⟨if (readIdent (c :: t)).1 ∈ keywords then TokenType.Keyword
                else TokenType.Identifier, (readIdent (c :: t)).1⟩,
        { st with cursor := (readIdent (c :: t)).2 })
    else if c.isDigit then
      Sum.inl (⟨TokenType.Number, (readNumber (c :: t)).1⟩,
        { st with cursor := (readNumber (c :: t)).2 })
    else
      Sum.inl (scanOp st c t)

/-- Modelled from the spec: `Tokenizer::next` (§4.1), fuelled.  The
implementation of `Tokenizer` is not in the repository; this follows the spec:
an error state returns `End` forever; pending synthesized `Dedent`s are emitted
first; otherwise the line-start or mid-line step produces a token, or advances
past skipped input (blank line, comment) and tries again.  Fuel exhaustion sets
the error flag (never reached by `next`, which supplies sufficient fuel). -/
def nextAux : Nat → LexState → Token × LexState
  | 0, st => (⟨TokenType.End, ""⟩, { st with errorFlag := true })
  | fuel + 1, st =>
    if st.errorFlag then (⟨TokenType.End, ""⟩, st)
    else if 0 < st.pendingDedents then
      (⟨TokenType.Dedent, ""⟩, { st with pendingDedents := st.pendingDedents - 1 })
    else
      match if st.atLineStart then lineStart st else scanTok st with
      | Sum.inl r => r
      | Sum.inr st1 => nextAux fuel st1

/-- Modelled from the spec: `Tokenizer::next` — one token per call (§4.1
contract).  `2 * |cursor| + 4` fuel strictly bounds the internal
skip-blank-line / skip-comment recursion depth. -/
def next (st : LexState) : Token × LexState :=
  nextAux (2 * st.cursor.length + 4) st

/-- Run the tokenizer to completion: the whole token stream up to and including
`End`, or `none` on a lexical error or fuel exhaustion. -/
def runTok : Nat → LexState → Option (List Token)
  | 0, _ => Option.none
  | fuel + 1, st =>
    if (next st).2.errorFlag then Option.none
    else if (next st).1.type = TokenType.End then some [(next st).1]
    else (runTok fuel (next st).2).map ((next st).1 :: ·)

/-- Tokenize a source text from the initial state. -/
def tokenize (fuel : Nat) (source : String) : Option (List Token) :=
  runTok fuel (initLexState source)

/-- Signed Indent/Dedent contribution of one token. -/
def tokBal (t : Token) : ℤ :=
  if t.type = TokenType.Indent then 1 else if t.type = TokenType.Dedent then -1 else 0

/-- Signed Indent/Dedent balance of a token list. -/
def listBal : List Token → ℤ
  | [] => 0
  | t :: ts => tokBal t + listBal ts

/-- Number of tokens of a given type in a list. -/
def countType (ty : TokenType) (ts : List Token) : Nat :=
  (ts.filter (fun t => t.type = ty)).length

/-- The Indent/Dedent debt of a tokenizer state: pending dedents plus open
indent levels, negated. -/
def lexDebt (st : LexState) : ℤ :=
  -(st.pendingDedents : ℤ) - (st.indentStack.length : ℤ)

/-- Literal constants carried by `Literal` expressions (§4.2); script numbers
(C++ `double`) are modelled as `ℚ`. -/
inductive TLit where
  | num (q : ℚ)
  | bool (b : Bool)
  | str (s : String)
  | none
deriving DecidableEq, Repr

/-- Modelled from the spec: the expression nodes of §4.2 needed by the claims
under verification (`Literal`, `Variable`, `Binary`, `Call`); `TypthonMini.h`
declares `Expression` with virtual `evaluate` but its implementation is not in
the repository. -/
inductive TExpr where
  | lit (l : TLit)
  | var (name : String)
  | binop (op : String) (lhs rhs : TExpr)
  | call (fn : TExpr) (args : List TExpr)
deriving Repr

/-- Modelled from the spec: the statement nodes of §4.2 needed by the claims
under verification; `TypthonMini.h` declares `Statement` with virtual `execute`
but its implementation is not in the repository. -/
inductive TStmt where
  | exprStmt (e : TExpr)
  | assign (name : String) (e : TExpr)
  | ret (e : TExpr)
  | brk
  | cont
  | pass
  | ifS (cond : TExpr) (thenB elseB : List TStmt)
  | whileS (cond : TExpr) (body : List TStmt)
  | forS (x : String) (iter : TExpr) (body : List TStmt)
  | raiseS (e : TExpr)
  | globalS (name : String)
  | defS (name : String) (params : List String) (body : List TStmt)
deriving Repr

/-- Modelled from the spec: runtime `Value` (§3), restricted to the variants the
claims exercise; `function` carries parameters, body and the closure
environment's index into the store, matching `FunctionObject`
(`TypthonMini.h` lines 143–150). -/
inductive TValue where
  | none
  | num (q : ℚ)
  | bool (b : Bool)
  | str (s : String)
  | list (items : List TValue)
  | func (params : List String) (body : List TStmt) (closure : Nat)
deriving Repr

/-- `ExecutionResult`, from `TypthonMini.h` lines 162–169: the uniform control
signal returned by every statement execution; the default is the trivial
all-false/None state. -/
structure ExecutionResult where
  hasReturn : Bool := false
  returnValue : TValue := TValue.none
  breakLoop : Bool := false
  continueLoop : Bool := false
  hasException : Bool := false
  exceptionValue : TValue := TValue.none
deriving Repr

/-- A result is non-trivial when any of the four control intents is set (§3). -/
def nonTrivial (r : ExecutionResult) : Bool :=
  r.hasReturn || r.breakLoop || r.continueLoop || r.hasException

/-- An exception-carrying result. -/
def throwRes (v : TValue) : ExecutionResult :=
  { hasException := true, exceptionValue := v }

/-- `Environment`, from `TypthonMini.h` lines 128–141: bindings, optional
parent, and the names declared `global`.  Shared mutable environments are
modelled by a store of frames addressed by index; `parent` is an index.
(`nonlocal` declarations are omitted: no claim under verification uses them.) -/
structure Frame where
  values : List (String × TValue)
  parent : Option Nat
  globalsDeclared : List String
deriving Repr

/-- The environment store; frame `0` is the interpreter's global environment. -/
abbrev Store := List Frame

/-- Insert-or-replace in a binding list (`Environment::define`'s overwrite). -/
def setAssoc : List (String × TValue) → String → TValue → List (String × TValue)
  | [], nm, v => [(nm, v)]
  | (k, w) :: t, nm, v =>
    if k = nm then (nm, v) :: t else (k, w) :: setAssoc t nm v

/-- Binding-list lookup. -/
def lookupAssoc : List (String × TValue) → String → Option TValue
  | [], _ => Option.none
  | (k, w) :: t, nm => if k = nm then some w else lookupAssoc t nm

/-- Define/overwrite `nm` in the frame at index `env`. -/
def defineIn (st : Store) (env : Nat) (nm : String) (v : TValue) : Store :=
  match st[env]? with
  | some f => st.set env { f with values := setAssoc f.values nm v }
  | Option.none => st

/-- Walk the parent chain reading `nm` (fuelled by the chain length bound). -/
def lookupChain : Nat → Store → Nat → String → Option TValue
  | 0, _, _, _ => Option.none
  | fuel + 1, st, env, nm =>
    match st[env]? with
    | Option.none => Option.none
    | some f =>
      match lookupAssoc f.values nm with
      | some v => some v
      | Option.none =>
        match f.parent with
        | some p => lookupChain fuel st p nm
        | Option.none => Option.none

/-- Name resolution for reads: innermost frame first, then the parent chain. -/
def lookupVar (st : Store) (env : Nat) (nm : String) : Option TValue :=
  lookupChain (st.length + 1) st env nm

/-- Modelled from the spec: assignment resolution (§3 invariant): if `nm` is
declared `global` in the current frame the write targets the root environment
(frame `0`), otherwise it defines/overwrites in the innermost scope. -/
def assignVar (st : Store) (env : Nat) (nm : String) (v : TValue) : Store :=
  match st[env]? with
  | some f =>
    if nm ∈ f.globalsDeclared then defineIn st 0 nm v else defineIn st env nm v
  | Option.none => st

/-- Record a `global nm` declaration in the current frame. -/
def declareGlobal (st : Store) (env : Nat) (nm : String) : Store :=
  match st[env]? with
  | some f => st.set env { f with globalsDeclared := nm :: f.globalsDeclared }
  | Option.none => st

/-- Modelled from the spec: truthiness coercion (§4.3): None, 0, empty text,
empty list and false are falsy; everything else is truthy. -/
def truthy : TValue → Bool
  | TValue.none => false
  | TValue.num q => decide (q ≠ 0)
  | TValue.bool b => b
  | TValue.str s => decide (s ≠ "")
  | TValue.list l => !l.isEmpty
  | TValue.func _ _ _ => true

/-- Value of a literal. -/
def litValue : TLit → TValue
  | TLit.num q => TValue.num q
  | TLit.bool b => TValue.bool b
  | TLit.str s => TValue.str s
  | TLit.none => TValue.none

/-- Scalar structural equality (used by `==`/`!=`; compound operands are a
runtime error in this restriction — no claim under verification compares
compound values). -/
def scalarEq : TValue → TValue → Option Bool
  | TValue.none, TValue.none => some true
  | TValue.num a, TValue.num b => some (decide (a = b))
  | TValue.bool a, TValue.bool b => some (a = b)
  | TValue.str a, TValue.str b => some (a = b)
  | _, _ => Option.none

/-- Modelled from the spec: binary operator evaluation (§4.3): numeric
arithmetic, text concatenation for `+` on text, structural equality for
`==`/`!=`, numeric comparisons; a type mismatch is a runtime error delivered
through the exception channel. -/
def evalBinop (op : String) (a b : TValue) : Except TValue TValue :=
  match op, a, b with
  | "+", TValue.num x, TValue.num y => Except.ok (TValue.num (x + y))
  | "+", TValue.str x, TValue.str y => Except.ok (TValue.str (x ++ y))
  | "-", TValue.num x, TValue.num y => Except.ok (TValue.num (x - y))
  | "*", TValue.num x, TValue.num y => Except.ok (TValue.num (x * y))
  | "/", TValue.num x, TValue.num y => Except.ok (TValue.num (x / y))
  | "<", TValue.num x, TValue.num y => Except.ok (TValue.bool (decide (x < y)))
  | "<=", TValue.num x, TValue.num y => Except.ok (TValue.bool (decide (x ≤ y)))
  | ">", TValue.num x, TValue.num y => Except.ok (TValue.bool (decide (y < x)))
  | ">=", TValue.num x, TValue.num y => Except.ok (TValue.bool (decide (y ≤ x)))
  | "==", x, y =>
    match scalarEq x y with
    | some r => Except.ok (TValue.bool r)
    | Option.none => Except.error (TValue.str "TypeError: ==")
  | "!=", x, y =>
    match scalarEq x y with
    | some r => Except.ok (TValue.bool !r)
    | Option.none => Except.error (TValue.str "TypeError: !=")
  | o, _, _ => Except.error (TValue.str ("TypeError: " ++ o))

/-- The kinds of work the evaluator performs: evaluate an expression, an
argument list, a statement, a statement block (suite), or the remaining
iterations of a `for` loop. -/
inductive Task where
  | expr (e : TExpr)
  | exprs (es : List TExpr)
  | stmt (s : TStmt)
  | block (ss : List TStmt)
  | forIter (x : String) (items : List TValue) (body : List TStmt)

/-- The outcome of a task: an expression value (or exception), an argument list
(or exception), or an `ExecutionResult`. -/
inductive Out where
  | val : Except TValue TValue → Out
  | vals : Except TValue (List TValue) → Out
  | res : ExecutionResult → Out

/-- Project an expression outcome. -/
def outVal : Out → Except TValue TValue
  | Out.val v => v
  | _ => Except.error (TValue.str "InternalError")

/-- Project an argument-list outcome. -/
def outVals : Out → Except TValue (List TValue)
  | Out.vals v => v
  | _ => Except.error (TValue.str "InternalError")

/-- Project a statement outcome. -/
def outRes : Out → ExecutionResult
  | Out.res r => r
  | _ => throwRes (TValue.str "InternalError")

/-- Modelled from the spec: the tree-walking evaluator (§4.3); the
implementations of `Statement::execute`, `Expression::evaluate` and
`Interpreter::callFunction` are not in the repository.  All recursion is
structural on the fuel, which every recursive call decrements; fuel exhaustion
surfaces as a runtime error through the uniform exception channel.  Semantics
follow §4.3: blocks short-circuit on the first non-trivial result; loops run
their body in the same environment, consume `breakLoop` (terminating) and
`continueLoop` (iterating), and propagate `hasReturn`/`hasException` unchanged;
calls bind parameters positionally in a fresh frame whose parent is the
callee's closure and consume `hasReturn`; `def` captures the current
environment by reference; assignment follows the `global` rule of §3. -/
def exec : Nat → Store → Nat → Task → Store × Out
  | 0, st, _, t =>
    (st, match t with
      | Task.expr _ => Out.val (Except.error (TValue.str "Timeout"))
      | Task.exprs _ => Out.vals (Except.error (TValue.str "Timeout"))
      | _ => Out.res (throwRes (TValue.str "Timeout")))
  | fuel + 1, st, env, task =>
    match task with
    | Task.expr e =>
      match e with
      | TExpr.lit l => (st, Out.val (Except.ok (litValue l)))
      | TExpr.var nm =>
        match lookupVar st env nm with
        | some v => (st, Out.val (Except.ok v))
        | Option.none => (st, Out.val (Except.error (TValue.str ("NameError: " ++ nm))))
      | TExpr.binop op l r =>
        let p1 := exec fuel st env (Task.expr l)
        match outVal p1.2 with
        | Except.error ex => (p1.1, Out.val (Except.error ex))
        | Except.ok lv =>
          if op = "and" then
            if truthy lv then
              let p2 := exec fuel p1.1 env (Task.expr r)
              (p2.1, Out.val (outVal p2.2))
            else (p1.1, Out.val (Except.ok lv))
          else if op = "or" then
            if truthy lv then (p1.1, Out.val (Except.ok lv))
            else
              let p2 := exec fuel p1.1 env (Task.expr r)
              (p2.1, Out.val (outVal p2.2))
          else
            let p2 := exec fuel p1.1 env (Task.expr r)
            match outVal p2.2 with
            | Except.error ex => (p2.1, Out.val (Except.error ex))
            | Except.ok rv => (p2.1, Out.val (evalBinop op lv rv))
      | TExpr.call f args =>
        let pf := exec fuel st env (Task.expr f)
        match outVal pf.2 with
        | Except.error ex => (pf.1, Out.val (Except.error ex))
        | Except.ok fv =>
          let pa := exec fuel pf.1 env (Task.exprs args)
          match outVals pa.2 with
          | Except.error ex => (pa.1, Out.val (Except.error ex))
          | Except.ok argVals =>
            match fv with
            | TValue.func params body closure =>
              if params.length = argVals.length then
                let newEnv := pa.1.length
                let st2 := pa.1 ++ [⟨params.zip argVals, some closure, []⟩]
                let pr := exec fuel st2 newEnv (Task.block body)
                let r := outRes pr.2
                if r.hasException then (pr.1, Out.val (Except.error r.exceptionValue))
                else
                  (pr.1, Out.val (Except.ok (if r.hasReturn then r.returnValue else TValue.none)))
              else (pa.1, Out.val (Except.error (TValue.str "TypeError: arity mismatch")))
            | _ => (pa.1, Out.val (Except.error (TValue.str "TypeError: not callable")))
    | Task.exprs es =>
      match es with
      | [] => (st, Out.vals (Except.ok []))
      | e :: rest =>
        let p1 := exec fuel st env (Task.expr e)
        match outVal p1.2 with
        | Except.error ex => (p1.1, Out.vals (Except.error ex))
        | Except.ok v =>
          let p2 := exec fuel p1.1 env (Task.exprs rest)
          match outVals p2.2 with
          | Except.error ex => (p2.1, Out.vals (Except.error ex))
          | Except.ok vs => (p2.1, Out.vals (Except.ok (v :: vs)))
    | Task.stmt s =>
      match s with
      | TStmt.exprStmt e =>
        let p := exec fuel st env (Task.expr e)
        match outVal p.2 with
        | Except.error ex => (p.1, Out.res (throwRes ex))
        | Except.ok _ => (p.1, Out.res {})
      | TStmt.assign nm e =>
        let p := exec fuel st env (Task.expr e)
        match outVal p.2 with
        | Except.error ex => (p.1, Out.res (throwRes ex))
        | Except.ok v => (assignVar p.1 env nm v, Out.res {})
      | TStmt.ret e =>
        let p := exec fuel st env (Task.expr e)
        match outVal p.2 with
        | Except.error ex => (p.1, Out.res (throwRes ex))
        | Except.ok v => (p.1, Out.res { hasReturn := true, returnValue := v })
      | TStmt.brk => (st, Out.res { breakLoop := true })
      | TStmt.cont => (st, Out.res { continueLoop := true })
      | TStmt.pass => (st, Out.res {})
      | TStmt.ifS c tb eb =>
        let p := exec fuel st env (Task.expr c)
        match outVal p.2 with
        | Except.error ex => (p.1, Out.res (throwRes ex))
        | Except.ok v =>
          if truthy v then exec fuel p.1 env (Task.block tb)
          else exec fuel p.1 env (Task.block eb)
      | TStmt.whileS c body =>
        let p := exec fuel st env (Task.expr c)
        match outVal p.2 with
        | Except.error ex => (p.1, Out.res (throwRes ex))
        | Except.ok v =>
          if truthy v then
            let pb := exec fuel p.1 env (Task.block body)
            let r := outRes pb.2
            if r.hasReturn || r.hasException then (pb.1, Out.res r)
            else if r.breakLoop then (pb.1, Out.res {})
            else exec fuel pb.1 env (Task.stmt (TStmt.whileS c body))
          else (p.1, Out.res {})
      | TStmt.forS x it body =>
        let p := exec fuel st env (Task.expr it)
        match outVal p.2 with
        | Except.error ex => (p.1, Out.res (throwRes ex))
        | Except.ok v =>
          match v with
          | TValue.list items => exec fuel p.1 env (Task.forIter x items body)
          | _ => (p.1, Out.res (throwRes (TValue.str "TypeError: not iterable")))
      | TStmt.raiseS e =>
        let p := exec fuel st env (Task.expr e)
        match outVal p.2 with
        | Except.error ex => (p.1, Out.res (throwRes ex))
        | Except.ok v => (p.1, Out.res (throwRes v))
      | TStmt.globalS nm => (declareGlobal st env nm, Out.res {})
      | TStmt.defS nm params body =>
        (defineIn st env nm (TValue.func params body env), Out.res {})
    | Task.block ss =>
      match ss with
      | [] => (st, Out.res {})
      | s :: rest =>
        let p := exec fuel st env (Task.stmt s)
        let r := outRes p.2
        if nonTrivial r then (p.1, Out.res r)
        else exec fuel p.1 env (Task.block rest)
    | Task.forIter x items body =>
      match items with
      | [] => (st, Out.res {})
      | v :: rest =>
        let st1 := assignVar st env x v
        let pb := exec fuel st1 env (Task.block body)
        let r := outRes pb.2
        if r.hasReturn || r.hasException then (pb.1, Out.res r)
        else if r.breakLoop then (pb.1, Out.res {})
        else exec fuel pb.1 env (Task.forIter x rest body)

/-- Evaluate one expression (projection of `exec`). -/
def evalExpr (fuel : Nat) (st : Store) (env : Nat) (e : TExpr) :
    Store × Except TValue TValue :=
  let p := exec fuel st env (Task.expr e)
  (p.1, outVal p.2)

/-- Execute one statement (projection of `exec`); the subject of the loop
claims. -/
def execStmt (fuel : Nat) (st : Store) (env : Nat) (s : TStmt) :
    Store × ExecutionResult :=
  let p := exec fuel st env (Task.stmt s)
  (p.1, outRes p.2)

/-- Modelled from the spec: `Interpreter::executeBlock` (`TypthonMini.h` lines
204–205; §4.3): run the statements in order, short-circuiting on the first
non-trivial `ExecutionResult` and returning it, else returning the trivial
result after the last statement.  The fuel bounds each statement's internal
recursion and is not consumed by walking the list itself. -/
def executeBlock (fuel : Nat) : Store → Nat → List TStmt → Store × ExecutionResult
  | st, _, [] => (st, {})
  | st, env, s :: rest =>
    let p := execStmt fuel st env s
    if nonTrivial p.2 then p
    else executeBlock fuel p.1 env rest

/-- The store holding only the interpreter's freshly created global
environment. -/
def initStore : Store := [⟨[], Option.none, []⟩]

/-- Modelled from the spec: `Interpreter::run` after parsing — execute the
program's statement list against the global environment (§4.3). -/
def runProgram (fuel : Nat) (prog : List TStmt) : Store × ExecutionResult :=
  executeBlock fuel initStore 0 prog

/-- Read a name from the binding list of the frame at index `i` of a finished
run (frame `0` is the global environment; frame `1` is the first call frame). -/
def frameRead (p : Store × ExecutionResult) (i : Nat) (nm : String) : Option TValue :=
  match p.1[i]? with
  | some f => lookupAssoc f.values nm
  | Option.none => Option.none

/-- The scoping scenario of §8 without a `global` declaration:
`x = 1; def f(): x = 2; f()`. -/
def progGlobalAbsent : List TStmt :=
  [TStmt.assign "x" (TExpr.lit (TLit.num 1)),
   TStmt.defS "f" [] [TStmt.assign "x" (TExpr.lit (TLit.num 2))],
   TStmt.exprStmt (TExpr.call (TExpr.var "f") [])]

/-- The scoping scenario of §8 with a `global` declaration:
`x = 1; def f(): global x; x = 2; f()`. -/
def progGlobalDeclared : List TStmt :=
  [TStmt.assign "x" (TExpr.lit (TLit.num 1)),
   TStmt.defS "f" [] [TStmt.globalS "x", TStmt.assign "x" (TExpr.lit (TLit.num 2))],
   TStmt.exprStmt (TExpr.call (TExpr.var "f") [])]

/-- Advance the tokenizer state by one `next` call. -/
def advance (st : LexState) : LexState := (next st).2

/-- The token returned by the `(k+1)`-st `next` call starting from `st`. -/
def tokenAfter : Nat → LexState → Token
  | 0, st => (next st).1
  | k + 1, st => tokenAfter k (advance st)

/-- A tokenizer state from which `next` must return `End` forever: the error
state, or the fully drained state (no pending dedents, no open indent levels,
no input left). -/
def Drained (st : LexState) : Prop :=
  st.errorFlag = true ∨
    (st.errorFlag = false ∧ st.cursor = [] ∧ st.indentStack = [] ∧ st.pendingDedents = 0)

end typthon

/-! ## Theorems: pin-state simulator -/

namespace simulator

theorem setLevelAt_length (pins : List PinState) (i : Nat) (v : ℚ) :
    (setLevelAt pins i v).length = pins.length := by
  unfold setLevelAt
  cases h : pins[i]? <;> simp

theorem setLevelAt_getElem?_ne (pins : List PinState) (i : Nat) (v : ℚ) (j : Nat)
    (hne : i ≠ j) : (setLevelAt pins i v)[j]? = pins[j]? := by
  unfold setLevelAt
  cases h : pins[i]? <;> simp [List.getElem?_set_ne hne]

theorem setLevelAt_getElem?_self (pins : List PinState) (i : Nat) (v : ℚ) :
    (setLevelAt pins i v)[i]? = (pins[i]?).map fun p => { p with analog_level := v } := by
  unfold setLevelAt
  cases h : pins[i]? with
  | none => simp [h]
  | some p =>
    have hi : i < pins.length := (List.getElem?_eq_some.mp h).1
    simp [List.getElem?_set_self hi, h]

theorem restoreStep_length (pins : List PinState) (e : Nat × ℚ) :
    (restoreStep pins e).length = pins.length := by
  unfold restoreStep
  split <;> simp [setLevelAt_length]

theorem restore_length (rs : List (Nat × ℚ)) (pins : List PinState) :
    (rs.foldl restoreStep pins).length = pins.length := by
  induction rs generalizing pins with
  | nil => rfl
  | cons e t ih => rw [List.foldl_cons, ih, restoreStep_length]

theorem restoreStep_getElem?_ne (pins : List PinState) (e : Nat × ℚ) (j : Nat)
    (hne : e.1 ≠ j) : (restoreStep pins e)[j]? = pins[j]? := by
  unfold restoreStep
  split <;> simp [setLevelAt_getElem?_ne _ _ _ _ hne]

theorem restore_getElem?_notMem (rs : List (Nat × ℚ)) (pins : List PinState) (i : Nat)
    (h : i ∉ rs.map Prod.fst) : (rs.foldl restoreStep pins)[i]? = pins[i]? := by
  induction rs generalizing pins with
  | nil => rfl
  | cons e t ih =>
    simp only [List.map_cons, List.mem_cons, not_or] at h
    rw [List.foldl_cons, ih _ h.2, restoreStep_getElem?_ne _ _ _ (fun he => h.1 he.symm)]

theorem restore_getElem? (rs : List (Nat × ℚ)) (pins : List PinState) (i : Nat)
    (hnd : (rs.map Prod.fst).Nodup) :
    (rs.foldl restoreStep pins)[i]? =
      match lookupRamp rs i with
      | some v => (pins[i]?).map fun p => { p with analog_level := v }
      | Option.none => pins[i]? := by
  induction rs generalizing pins with
  | nil => rfl
  | cons e t ih =>
    obtain ⟨j, w⟩ := e
    simp only [List.map_cons, List.nodup_cons] at hnd
    rw [List.foldl_cons]
    by_cases hji : j = i
    · subst hji
      have hl : lookupRamp ((j, w) :: t) j = some w := by simp [lookupRamp]
      rw [restore_getElem?_notMem _ _ _ hnd.1, hl]
      unfold restoreStep
      split
      · next hlt => rw [setLevelAt_getElem?_self]
      · next hge =>
        have : pins[j]? = Option.none := List.getElem?_eq_none (by omega)
        simp [this]
    · have hl : lookupRamp ((j, w) :: t) i = lookupRamp t i := by simp [lookupRamp, hji]
      rw [ih _ hnd.2, hl, restoreStep_getElem?_ne _ _ _ hji]

theorem restore_mode (rs : List (Nat × ℚ)) (pins : List PinState) (i : Nat)
    (hnd : (rs.map Prod.fst).Nodup) :
    ((rs.foldl restoreStep pins)[i]?).map PinState.mode = (pins[i]?).map PinState.mode := by
  rw [restore_getElem? _ _ _ hnd]
  cases lookupRamp rs i <;> cases pins[i]? <;> rfl

theorem decayPin_mode (p : PinState) : (decayPin p).mode = p.mode := by
  unfold decayPin
  split <;> rfl

theorem setLevel_decayPin (p : PinState) (v : ℚ) :
    ({ decayPin p with analog_level := v } : PinState) = { p with analog_level := v } := by
  unfold decayPin
  split <;> rfl

/-- C3. Every `Board::tick` applies the fixed decay-and-restore rule: each
`AnalogOut` analog pin's level is multiplied by the decay factor `0.95`; then
each pin index present in the scheduled-ramps map has its level set back to the
recorded target value.  Digital pins and all pin modes are untouched.  The
hypothesis that the ramp keys are duplicate-free is an invariant of the
`unordered_map` being modelled. -/
theorem tick_decay_restore (b : Board) (i : Nat)
    (hnd : (b.scheduled_ramps.map Prod.fst).Nodup) :
    (tick b).digital_pins = b.digital_pins ∧
    (tick b).analog_pins.length = b.analog_pins.length ∧
    ((tick b).analog_pins[i]?).map PinState.mode = (b.analog_pins[i]?).map PinState.mode ∧
    (tick b).analog_pins[i]? = (b.analog_pins[i]?).map fun p =>
      match lookupRamp b.scheduled_ramps i with
      | some v => { p with analog_level := v }
      | Option.none => decayPin p := by
  refine ⟨rfl, ?_, ?_, ?_⟩
  · show (b.scheduled_ramps.foldl restoreStep (b.analog_pins.map decayPin)).length = _
    rw [restore_length, List.length_map]
  · show ((b.scheduled_ramps.foldl restoreStep (b.analog_pins.map decayPin))[i]?).map _ = _
    rw [restore_mode _ _ _ hnd, List.getElem?_map]
    cases b.analog_pins[i]? with
    | none => rfl
    | some p => simp [decayPin_mode]
  · show (b.scheduled_ramps.foldl restoreStep (b.analog_pins.map decayPin))[i]? = _
    rw [restore_getElem? _ _ _ hnd, List.getElem?_map]
    cases hl : lookupRamp b.scheduled_ramps i <;> cases hp : b.analog_pins[i]? <;>
      simp only [Option.map_some', Option.map_none']
    exact congrArg some (setLevel_decayPin _ _)

/-- Witness for C3 on a concrete board: one analog pin decaying, one restored
by a scheduled ramp. -/
theorem tick_decay_restore_witness :
    (((⟨"w", [], [⟨PinMode.AnalogOut, false, 1⟩, ⟨PinMode.AnalogOut, false, 1⟩],
        [(0, (1 : ℚ) / 2)]⟩ : Board).scheduled_ramps.map Prod.fst).Nodup ∧
      (tick ⟨"w", [], [⟨PinMode.AnalogOut, false, 1⟩, ⟨PinMode.AnalogOut, false, 1⟩],
        [(0, (1 : ℚ) / 2)]⟩).analog_pins[1]? =
        some ⟨PinMode.AnalogOut, false, 19 / 20⟩) := by
  refine ⟨by decide, ?_⟩
  have h := (tick_decay_restore
    ⟨"w", [], [⟨PinMode.AnalogOut, false, 1⟩, ⟨PinMode.AnalogOut, false, 1⟩],
      [(0, (1 : ℚ) / 2)]⟩ 1 (by decide)).2.2.2
  rw [h]
  norm_num [lookupRamp, decayPin, decay_factor]

end simulator

namespace simulator

/-- C9. `Board::set_pin_mode` checks the digital range first: any index below
the digital pin count updates that digital pin's mode and leaves every analog
pin untouched (so with at least as many digital as analog pins, no analog mode
is ever reachable through it), and it throws `out_of_range` exactly when the
index is at or beyond both pin counts. -/
theorem set_pin_mode_spec (b : Board) (i : Nat) (m : PinMode) :
    (i < b.digital_pins.length →
        set_pin_mode b i m =
          Except.ok { b with digital_pins := setModeAt b.digital_pins i m }) ∧
    ((∃ e, set_pin_mode b i m = Except.error e) ↔
        b.digital_pins.length ≤ i ∧ b.analog_pins.length ≤ i) ∧
    (b.analog_pins.length ≤ b.digital_pins.length →
        ∀ b', set_pin_mode b i m = Except.ok b' → b'.analog_pins = b.analog_pins) := by
  unfold set_pin_mode
  refine ⟨fun h => by rw [if_pos h], ?_, ?_⟩
  · constructor
    · rintro ⟨e, he⟩
      split at he
      · exact absurd he (by simp)
      · split at he
        · exact absurd he (by simp)
        · next h1 h2 => exact ⟨by omega, by omega⟩
    · rintro ⟨h1, h2⟩
      rw [if_neg (by omega), if_neg (by omega)]
      exact ⟨_, rfl⟩
  · intro hle b' h
    split at h
    · cases h
      rfl
    · next h1 =>
      split at h
      · next h2 => omega
      · cases h

/-- Witness for C9 on a concrete Uno-like board (14 digital, 6 analog pins):
index 3 hits the digital branch, and index 20 is rejected. -/
theorem set_pin_mode_spec_witness :
    set_pin_mode (mkBoard "Uno-like" 14 6) 3 PinMode.Output =
      Except.ok { mkBoard "Uno-like" 14 6 with
        digital_pins := setModeAt (mkBoard "Uno-like" 14 6).digital_pins 3 PinMode.Output } ∧
    (∃ e, set_pin_mode (mkBoard "Uno-like" 14 6) 20 PinMode.Output = Except.error e) := by
  constructor
  · exact (set_pin_mode_spec (mkBoard "Uno-like" 14 6) 3 PinMode.Output).1 (by decide)
  · exact ((set_pin_mode_spec (mkBoard "Uno-like" 14 6) 20 PinMode.Output).2.1).2 (by decide)

theorem setRamp_lookup_self (rs : List (Nat × ℚ)) (i : Nat) (v : ℚ) :
    lookupRamp (setRamp rs i v) i = some v := by
  induction rs with
  | nil => simp [setRamp, lookupRamp]
  | cons e t ih =>
    obtain ⟨j, w⟩ := e
    by_cases hji : j = i
    · simp [setRamp, lookupRamp, hji]
    · simp [setRamp, lookupRamp, hji, ih]

theorem setRamp_keys_mem (rs : List (Nat × ℚ)) (i : Nat) (v : ℚ) (k : Nat)
    (h : k ∈ (setRamp rs i v).map Prod.fst) : k ∈ rs.map Prod.fst ∨ k = i := by
  induction rs with
  | nil => simpa [setRamp] using h
  | cons e t ih =>
    obtain ⟨j, w⟩ := e
    by_cases hji : j = i
    · simp only [setRamp, if_pos hji, List.map_cons, List.mem_cons] at h ⊢
      rcases h with h | h
      · exact Or.inr h
      · exact Or.inl (Or.inr h)
    · simp only [setRamp, if_neg hji, List.map_cons, List.mem_cons] at h ⊢
      rcases h with h | h
      · exact Or.inl (Or.inl h)
      · rcases ih h with h' | h'
        · exact Or.inl (Or.inr h')
        · exact Or.inr h'

theorem setRamp_keys_nodup (rs : List (Nat × ℚ)) (i : Nat) (v : ℚ)
    (h : (rs.map Prod.fst).Nodup) : ((setRamp rs i v).map Prod.fst).Nodup := by
  induction rs with
  | nil => simp [setRamp]
  | cons e t ih =>
    obtain ⟨j, w⟩ := e
    simp only [List.map_cons, List.nodup_cons] at h
    by_cases hji : j = i
    · subst hji
      simpa [setRamp, List.nodup_cons] using h
    · simp only [setRamp, if_neg hji, List.map_cons, List.nodup_cons]
      refine ⟨fun hmem => ?_, ih h.2⟩
      rcases setRamp_keys_mem t i v j hmem with h' | h'
      · exact h.1 h'
      · exact hji h'

/-- The state of a board on which `write_analog i v` was the most recent analog
write to pin `i`: unique ramp keys, ramp target `v` recorded for `i`, and the
pin present with level `v`. -/
def RampInv (b : Board) (i : Nat) (v : ℚ) : Prop :=
  (b.scheduled_ramps.map Prod.fst).Nodup ∧
  lookupRamp b.scheduled_ramps i = some v ∧
  ∃ p, b.analog_pins[i]? = some p ∧ p.analog_level = v

theorem setAnalogWriteAt_getElem?_self (pins : List PinState) (i : Nat) (v : ℚ) :
    (setAnalogWriteAt pins i v)[i]? =
      (pins[i]?).map fun p => { p with mode := PinMode.AnalogOut, analog_level := v } := by
  unfold setAnalogWriteAt
  cases h : pins[i]? with
  | none => simp [h]
  | some p =>
    have hi : i < pins.length := by
      cases Nat.lt_or_ge i pins.length with
      | inl h' => exact h'
      | inr h' => rw [List.getElem?_eq_none h'] at h; cases h
    simp [List.getElem?_set_self hi, h]

theorem write_analog_rampInv (b b' : Board) (i : Nat) (v : ℚ)
    (hnd : (b.scheduled_ramps.map Prod.fst).Nodup)
    (hw : write_analog b i v = Except.ok b') : RampInv b' i v := by
  unfold write_analog at hw
  split at hw
  · next hlt =>
    cases hw
    refine ⟨setRamp_keys_nodup _ _ _ hnd, setRamp_lookup_self _ _ _, ?_⟩
    show ∃ p, (setAnalogWriteAt b.analog_pins i v)[i]? = some p ∧ p.analog_level = v
    rw [setAnalogWriteAt_getElem?_self, List.getElem?_eq_getElem hlt]
    exact ⟨_, rfl, rfl⟩
  · cases hw

end simulator

namespace simulator

theorem tick_rampInv (b : Board) (i : Nat) (v : ℚ) (h : RampInv b i v) :
    RampInv (tick b) i v := by
  obtain ⟨hnd, hl, p, hp, hlev⟩ := h
  have hramps : (tick b).scheduled_ramps = b.scheduled_ramps := rfl
  refine ⟨by rw [hramps]; exact hnd, by rw [hramps]; exact hl, ?_⟩
  have hchar := (tick_decay_restore b i hnd).2.2.2
  rw [hchar, hp, hl]
  exact ⟨_, rfl, rfl⟩

theorem rampInv_read (b : Board) (i : Nat) (v : ℚ) (h : RampInv b i v) :
    read_analog b i = Except.ok v := by
  obtain ⟨-, -, p, hp, hlev⟩ := h
  unfold read_analog
  rw [hp]
  simp [hlev]

/-- C8. After `write_analog i v` succeeds, `read_analog i` returns exactly `v`
after any number of `tick`s: the restore loop runs after the decay loop within
the same tick and resets the pin to the recorded target, so the `0.95` decay is
never observable through `read_analog` on such a pin. -/
theorem write_analog_stable_under_tick (b b' : Board) (i : Nat) (v : ℚ) (n : Nat)
    (hnd : (b.scheduled_ramps.map Prod.fst).Nodup)
    (hw : write_analog b i v = Except.ok b') :
    read_analog (tick^[n] b') i = Except.ok v := by
  have hinv : RampInv b' i v := write_analog_rampInv b b' i v hnd hw
  clear hw hnd
  induction n generalizing b' with
  | zero => exact rampInv_read b' i v hinv
  | succ k ih =>
    rw [Function.iterate_succ_apply]
    exact ih (tick b') (tick_rampInv b' i v hinv)

/-- Witness for C8 on a concrete board: pin 1 of a 1-digital/2-analog board,
written to `3/4`, still reads `3/4` after two ticks. -/
theorem write_analog_stable_under_tick_witness :
    read_analog
      (tick^[2] { mkBoard "w" 1 2 with
        analog_pins := setAnalogWriteAt (mkBoard "w" 1 2).analog_pins 1 ((3 : ℚ) / 4)
        scheduled_ramps := setRamp (mkBoard "w" 1 2).scheduled_ramps 1 ((3 : ℚ) / 4) }) 1 =
      Except.ok ((3 : ℚ) / 4) :=
  write_analog_stable_under_tick (mkBoard "w" 1 2) _ 1 ((3 : ℚ) / 4) 2
    (by decide) rfl

end simulator

/-! ## Theorems: HumanReadableApi -/

namespace Hra

theorem splitTokens_length_le (budget : Nat) (cs : List Char) :
    (splitTokens budget cs).length ≤ budget := by
  induction budget generalizing cs with
  | zero => simp [splitTokens]
  | succ n ih =>
    rw [splitTokens]
    split
    · simp
    · simpa using ih _

theorem splitTokens_tokens_wf (budget : Nat) (cs : List Char) :
    ∀ w ∈ splitTokens budget cs, w ≠ [] ∧ ' ' ∉ w := by
  induction budget generalizing cs with
  | zero => simp [splitTokens]
  | succ n ih =>
    rw [splitTokens]
    split
    · simp
    · next h =>
      intro w hw
      rcases List.mem_cons.mp hw with hw | hw
      · subst hw
        constructor
        · have hne : (cs.dropWhile (· = ' ')).head? = some (cs.dropWhile (· = ' ')).head! := by
            rw [h]; rfl
          have hhead : ¬((cs.dropWhile (· = ' ')).head! = ' ') := by
            have := List.head?_dropWhile_not (· = ' ') cs
            rw [hne] at this
            simpa using this
          rw [h]
          rw [h] at hhead
          simp only [List.takeWhile]
          simp only [List.head!] at hhead
          rw [decide_eq_true (by exact hhead)]
          simp
        · intro hmem
          exact absurd (List.mem_takeWhile_imp hmem) (by simp)
      · exact ih _ w hw

theorem splitTokens_nil_iff (budget : Nat) (cs : List Char) (hb : 0 < budget) :
    splitTokens budget cs = [] ↔ ∀ c ∈ cs, c = ' ' := by
  obtain ⟨n, rfl⟩ := Nat.exists_eq_succ_of_ne_zero (Nat.pos_iff_ne_zero.mp hb)
  rw [splitTokens]
  constructor
  · intro h
    split at h
    · next hdrop =>
      exact fun c hc => of_decide_eq_true (List.dropWhile_eq_nil_iff.mp hdrop c hc)
    · cases h
  · intro h
    have : cs.dropWhile (· = ' ') = [] := List.dropWhile_eq_nil_iff.mpr (by simpa using h)
    rw [this]

theorem findCommand_first (cmds : List String) (nm : String) :
    ∀ i, findCommand cmds nm = some i →
      cmds[i]? = some nm ∧ ∀ j, j < i → cmds[j]? ≠ some nm := by
  induction cmds with
  | nil => intro i h; cases h
  | cons c t ih =>
    intro i h
    rw [findCommand] at h
    split at h
    · next hc =>
      cases h
      subst hc
      exact ⟨by simp, fun j hj => by omega⟩
    · next hc =>
      cases hfc : findCommand t nm with
      | none => rw [hfc] at h; cases h
      | some k =>
        rw [hfc, Option.map_some'] at h
        have hik : k + 1 = i := by simpa using h
        subst hik
        obtain ⟨h1, h2⟩ := ih k hfc
        refine ⟨by simpa using h1, ?_⟩
        intro j hj
        cases j with
        | zero => simpa using hc
        | succ j' => simpa using h2 j' (by omega)

/-- C4. `handleLine` splits the line on spaces into at most 10 non-empty,
space-free tokens; an empty token list (the line is empty or all spaces) means
no handler runs and nothing is printed; otherwise the first token selects the
first registered command with that name, whose handler is invoked once with the
token count and tokens, and if no command matches, `"ERR: Unknown command"` is
printed. -/
theorem handleLine_dispatch (cmds : List String) (line : String) :
    (splitTokens 10 line.toList).length ≤ 10 ∧
    (∀ w ∈ splitTokens 10 line.toList, w ≠ [] ∧ ' ' ∉ w) ∧
    (splitTokens 10 line.toList = [] ↔ ∀ c ∈ line.toList, c = ' ') ∧
    (splitTokens 10 line.toList = [] → handleLine cmds line = HraAction.silent) ∧
    (∀ a0 rest, (splitTokens 10 line.toList).map String.mk = a0 :: rest →
      (∀ i, findCommand cmds a0 = some i →
        handleLine cmds line = HraAction.invoked i (a0 :: rest).length (a0 :: rest) ∧
        cmds[i]? = some a0 ∧ ∀ j, j < i → cmds[j]? ≠ some a0) ∧
      (findCommand cmds a0 = Option.none → handleLine cmds line = HraAction.unknownErr)) := by
  refine ⟨splitTokens_length_le 10 _, splitTokens_tokens_wf 10 _,
    splitTokens_nil_iff 10 _ (by omega), ?_, ?_⟩
  · intro h
    unfold handleLine dispatchTokens
    rw [h]
    rfl
  · intro a0 rest hsplit
    constructor
    · intro i hfc
      refine ⟨?_, findCommand_first cmds a0 i hfc⟩
      unfold handleLine dispatchTokens
      simp only [hsplit, hfc]
    · intro hfc
      unfold handleLine dispatchTokens
      simp only [hsplit, hfc]

/-- Witness for C4: with commands `["LED", "PWM"]`, the line `"PWM  3 255"`
invokes the handler of command 1 with three tokens, and `"noop"` prints the
unknown-command error. -/
theorem handleLine_dispatch_witness :
    handleLine ["LED", "PWM"] "PWM  3 255" = HraAction.invoked 1 3 ["PWM", "3", "255"] ∧
    handleLine ["LED", "PWM"] "noop" = HraAction.unknownErr := by
  constructor
  · exact (((handleLine_dispatch ["LED", "PWM"] "PWM  3 255").2.2.2.2
      "PWM" ["3", "255"] (by decide)).1 1 (by decide)).1
  · exact ((handleLine_dispatch ["LED", "PWM"] "noop").2.2.2.2
      "noop" [] (by decide)).2 (by decide)

end Hra

namespace Hra

theorem pollStep_cases (n : Nat) (st : PollState) (c : Char) (hlen : st.len ≤ n - 1) :
    (∀ p ∈ (pollStep n st c).2.1, p.1 < n) ∧
    (∀ l ∈ (pollStep n st c).2.2.toList, l.length + 1 ≤ n) ∧
    (pollStep n st c).1.len ≤ n - 1 := by
  unfold pollStep
  split
  · split
    · next hpos =>
      refine ⟨?_, ?_, by simp⟩
      · intro p hp
        simp only [List.mem_singleton] at hp
        subst hp
        omega
      · intro l hl
        simp only [Option.toList_some, List.mem_singleton] at hl
        subst hl
        have : (List.take st.len (st.buffer.set st.len (Char.ofNat 0))).length ≤ st.len := by
          simp [List.length_take]
        omega
    · exact ⟨by simp, by simp, hlen⟩
  · split
    · next hlt =>
      refine ⟨?_, by simp, by simp; omega⟩
      intro p hp
      simp only [List.mem_singleton] at hp
      subst hp
      omega
    · exact ⟨by simp, by simp, hlen⟩

/-- C10. `poll` never writes outside buffer positions `0 … bufferSize-1`: a
non-newline byte is appended only while the accumulated length is below
`bufferSize-1` (excess bytes of an over-long line are dropped), and the
terminating null byte written before a line is handled also lands inside the
buffer, so every dispatched line plus its terminator fits in the buffer. -/
theorem poll_buffer_safe (n : Nat) (st : PollState) (input : List Char)
    (hlen : st.len ≤ n - 1) :
    (∀ p ∈ (pollRun n st input).2.1, p.1 < n) ∧
    (∀ l ∈ (pollRun n st input).2.2, l.length + 1 ≤ n) ∧
    (pollRun n st input).1.len ≤ n - 1 := by
  induction input generalizing st with
  | nil => exact ⟨by simp [pollRun], by simp [pollRun], by simpa [pollRun] using hlen⟩
  | cons c cs ih =>
    obtain ⟨hw, hl, hs⟩ := pollStep_cases n st c hlen
    obtain ⟨ihw, ihl, ihs⟩ := ih (pollStep n st c).1 hs
    rw [pollRun]
    refine ⟨?_, ?_, ihs⟩
    · intro p hp
      rcases List.mem_append.mp hp with h | h
      · exact hw p h
      · exact ihw p h
    · intro l hlm
      rcases List.mem_append.mp hlm with h | h
      · exact hl l h
      · exact ihl l h

/-- Witness for C10: buffer size 3, input `"abcd\nx"`; the only writes are at
indices 0, 1 and 2, and the handled line `"ab"` fits with its terminator. -/
theorem poll_buffer_safe_witness :
    (∀ p ∈ (pollRun 3 ⟨[' ', ' ', ' '], 0⟩ "abcd\nx".toList).2.1, p.1 < 3) ∧
    (∀ l ∈ (pollRun 3 ⟨[' ', ' ', ' '], 0⟩ "abcd\nx".toList).2.2, l.length + 1 ≤ 3) ∧
    (pollRun 3 ⟨[' ', ' ', ' '], 0⟩ "abcd\nx".toList).1.len ≤ 3 - 1 :=
  poll_buffer_safe 3 ⟨[' ', ' ', ' '], 0⟩ "abcd\nx".toList (by decide)

end Hra

/-! ## Theorems: TypthonMini interpreter -/

namespace typthon

/-- C1. `executeBlock` runs the statements in order; as soon as a statement's
`ExecutionResult` has any of `hasReturn`, `breakLoop`, `continueLoop` or
`hasException` set, no later statement runs (the outcome is independent of the
suffix) and that child result is returned unchanged; if no statement signals,
the trivial all-false/None result is returned after the last statement. -/
theorem executeBlock_short_circuit (fuel : Nat) (env : Nat) :
    (∀ (xs ys : List TStmt) (s : TStmt) (st st1 : Store) (p : Store × ExecutionResult),
        executeBlock fuel st env xs = (st1, {}) →
        execStmt fuel st1 env s = p →
        nonTrivial p.2 = true →
        executeBlock fuel st env (xs ++ s :: ys) = p) ∧
    (∀ (xs : List TStmt) (st : Store),
        nonTrivial (executeBlock fuel st env xs).2 = false →
        (executeBlock fuel st env xs).2 = {}) := by
  constructor
  · intro xs
    induction xs with
    | nil =>
      intro ys s st st1 p h1 h2 h3
      rw [executeBlock] at h1
      cases h1
      rw [List.nil_append, executeBlock, h2, if_pos h3]
    | cons x t ih =>
      intro ys s st st1 p h1 h2 h3
      rw [executeBlock] at h1
      rw [List.cons_append, executeBlock]
      by_cases hnt : nonTrivial (execStmt fuel st env x).2 = true
      · rw [if_pos hnt] at h1
        rw [congrArg Prod.snd h1] at hnt
        simp [nonTrivial] at hnt
      · rw [if_neg hnt] at h1
        rw [if_neg hnt]
        exact ih ys s _ st1 p h1 h2 h3
  · intro xs
    induction xs with
    | nil => intro st h; rfl
    | cons x t ih =>
      intro st h
      rw [executeBlock] at h ⊢
      by_cases hnt : nonTrivial (execStmt fuel st env x).2 = true
      · rw [if_pos hnt] at h
        rw [h] at hnt
        cases hnt
      · rw [if_neg hnt] at h ⊢
        exact ih _ h

/-- Witness for C1: after the trivial prefix `[pass]`, a `break` statement
short-circuits the block, and the trailing assignment never runs. -/
theorem executeBlock_short_circuit_witness :
    executeBlock 3 initStore 0
        [TStmt.pass, TStmt.brk, TStmt.assign "z" (TExpr.lit (TLit.num 7))] =
      (initStore, { breakLoop := true }) :=
  (executeBlock_short_circuit 3 0).1 [TStmt.pass]
    [TStmt.assign "z" (TExpr.lit (TLit.num 7))] TStmt.brk initStore initStore
    (initStore, { breakLoop := true }) rfl rfl rfl

end typthon


namespace typthon

theorem execStmt_while_step (fuel : Nat) (st st1 st2 : Store) (env : Nat)
    (c : TExpr) (body : List TStmt) (v : TValue) (r : ExecutionResult)
    (hc : exec fuel st env (Task.expr c) = (st1, Out.val (Except.ok v)))
    (htr : truthy v = true)
    (hb : exec fuel st1 env (Task.block body) = (st2, Out.res r)) :
    execStmt (fuel + 1) st env (TStmt.whileS c body) =
      (if r.hasReturn || r.hasException then (st2, r)
       else if r.breakLoop then (st2, ({} : ExecutionResult))
       else execStmt fuel st2 env (TStmt.whileS c body)) := by
  unfold execStmt
  simp only [exec, hc, outVal, htr, if_true, hb, outRes]
  split
  · rfl
  · split <;> rfl

theorem exec_forIter_step (fuel : Nat) (st st2 : Store) (env : Nat)
    (x : String) (v : TValue) (items : List TValue) (body : List TStmt)
    (r : ExecutionResult)
    (hb : exec fuel (assignVar st env x v) env (Task.block body) = (st2, Out.res r)) :
    exec (fuel + 1) st env (Task.forIter x (v :: items) body) =
      (if r.hasReturn || r.hasException then (st2, Out.res r)
       else if r.breakLoop then (st2, Out.res ({} : ExecutionResult))
       else exec fuel st2 env (Task.forIter x items body)) := by
  simp only [exec, hb, outRes]

/-- C2. Loop signal handling for `while` and `for` (§4.3): a `breakLoop` from
the body ends the loop with the signal consumed (the loop's result is the
trivial one, `breakLoop` cleared); a `continueLoop` is consumed and the next
iteration begins; `hasReturn`/`hasException` stop the loop and are returned
unchanged. -/
theorem loop_signal_consumption (fuel : Nat) (st st1 st2 : Store) (env : Nat)
    (c : TExpr) (body : List TStmt) (x : String) (v : TValue) (items : List TValue)
    (r : ExecutionResult) :
    ((exec fuel st env (Task.expr c) = (st1, Out.val (Except.ok v)) →
      truthy v = true →
      exec fuel st1 env (Task.block body) = (st2, Out.res r) →
        (((r.hasReturn || r.hasException) = true →
            execStmt (fuel + 1) st env (TStmt.whileS c body) = (st2, r)) ∧
         (r.hasReturn = false → r.hasException = false → r.breakLoop = true →
            execStmt (fuel + 1) st env (TStmt.whileS c body) = (st2, {})) ∧
         (r.hasReturn = false → r.hasException = false → r.breakLoop = false →
            execStmt (fuel + 1) st env (TStmt.whileS c body) =
              execStmt fuel st2 env (TStmt.whileS c body)))) ∧
     (exec fuel (assignVar st env x v) env (Task.block body) = (st2, Out.res r) →
        (((r.hasReturn || r.hasException) = true →
            exec (fuel + 1) st env (Task.forIter x (v :: items) body) = (st2, Out.res r)) ∧
         (r.hasReturn = false → r.hasException = false → r.breakLoop = true →
            exec (fuel + 1) st env (Task.forIter x (v :: items) body) =
              (st2, Out.res {})) ∧
         (r.hasReturn = false → r.hasException = false → r.breakLoop = false →
            exec (fuel + 1) st env (Task.forIter x (v :: items) body) =
              exec fuel st2 env (Task.forIter x items body))))) := by
  constructor
  · intro hc htr hb
    have h := execStmt_while_step fuel st st1 st2 env c body v r hc htr hb
    refine ⟨fun hre => ?_, fun h1 h2 h3 => ?_, fun h1 h2 h3 => ?_⟩
    · rw [h, if_pos hre]
    · rw [h, if_neg (by simp [h1, h2]), if_pos h3]
    · rw [h, if_neg (by simp [h1, h2]), if_neg (by simp [h3])]
  · intro hb
    have h := exec_forIter_step fuel st st2 env x v items body r hb
    refine ⟨fun hre => ?_, fun h1 h2 h3 => ?_, fun h1 h2 h3 => ?_⟩
    · rw [h, if_pos hre]
    · rw [h, if_neg (by simp [h1, h2]), if_pos h3]
    · rw [h, if_neg (by simp [h1, h2]), if_neg (by simp [h3])]

/-- Witness for C2: with a true condition and a body that is a single `break`,
the `while` statement returns the trivial result (break consumed); the `for`
counterpart over `[1, 2]` behaves the same. -/
theorem loop_signal_consumption_witness :
    execStmt 3 initStore 0 (TStmt.whileS (TExpr.lit (TLit.bool true)) [TStmt.brk]) =
      (initStore, {}) ∧
    exec 3 initStore 0
        (Task.forIter "i" [TValue.num 1, TValue.num 2] [TStmt.brk]) =
      (assignVar initStore 0 "i" (TValue.num 1), Out.res {}) := by
  constructor
  · exact ((loop_signal_consumption 2 initStore initStore initStore 0
      (TExpr.lit (TLit.bool true)) [TStmt.brk] "i" (TValue.bool true) []
      { breakLoop := true }).1 rfl rfl rfl).2.1 rfl rfl rfl
  · exact ((loop_signal_consumption 2 initStore initStore
      (assignVar initStore 0 "i" (TValue.num 1)) 0
      (TExpr.lit (TLit.bool true)) [TStmt.brk] "i" (TValue.num 1) [TValue.num 2]
      { breakLoop := true }).2 rfl).2.1 rfl rfl rfl

end typthon

namespace typthon

/-- C5. Scoping through the `global` rule (§3, §8): after `x = 1` at global
scope, calling a function whose body does `x = 2` leaves the global `x` at `1`
and creates the binding in the call frame; with `global x` declared in the
body, the assignment targets the root environment, the global `x` becomes `2`,
and no local binding for `x` is created in the call frame. -/
theorem global_scoping :
    frameRead (runProgram 8 progGlobalAbsent) 0 "x" = some (TValue.num 1) ∧
    frameRead (runProgram 8 progGlobalAbsent) 1 "x" = some (TValue.num 2) ∧
    frameRead (runProgram 8 progGlobalDeclared) 0 "x" = some (TValue.num 2) ∧
    frameRead (runProgram 8 progGlobalDeclared) 1 "x" = Option.none :=
  ⟨rfl, rfl, rfl, rfl⟩

end typthon

namespace typthon

theorem popTo_spec (stack : List Nat) (n : Nat) (p : Nat × List Nat)
    (h : popTo stack n = some p) :
    p.1 + p.2.length = stack.length ∧ (n < stack.headD 0 → 1 ≤ p.1) := by
  induction stack generalizing p with
  | nil =>
    rw [popTo] at h
    split at h
    · cases h
      exact ⟨rfl, by simp⟩
    · cases h
  | cons m t ih =>
    rw [popTo] at h
    split at h
    · next he =>
      cases h
      refine ⟨by simp, fun hlt => ?_⟩
      simp at hlt
      omega
    · next he =>
      split at h
      · next hlt =>
        cases hq : popTo t n with
        | none => rw [hq] at h; cases h
        | some q =>
          rw [hq, Option.map_some'] at h
          cases h
          obtain ⟨h1, -⟩ := ih q hq
          constructor
          · simpa using by omega
          · intro
            simp
      · cases h

end typthon

namespace typthon

theorem tokBal_eq_zero (t : Token) (h1 : t.type ≠ TokenType.Indent)
    (h2 : t.type ≠ TokenType.Dedent) : tokBal t = 0 := by
  simp [tokBal, h1, h2]

theorem charTokenType_or (c : Char) :
    charTokenType c = TokenType.Operator ∨ charTokenType c = TokenType.Symbol := by
  unfold charTokenType
  split <;> simp

theorem lineEOF_balance (st : LexState) (t : Token) (st' : LexState)
    (h : lineEOF st = (t, st')) :
    tokBal t + lexDebt st' = lexDebt st ∧ st'.errorFlag = st.errorFlag := by
  unfold lineEOF at h
  split at h <;> cases h
  · next hstack => exact ⟨by simp [tokBal, lexDebt, hstack], rfl⟩
  · next s tl hstack =>
    refine ⟨?_, rfl⟩
    simp only [tokBal, lexDebt, hstack, List.length_cons]
    norm_num
    push_cast
    omega

theorem lineIndent_inl_balance (st : LexState) (rest : List Char) (n : Nat)
    (t : Token) (st' : LexState) (hp : st.pendingDedents = 0)
    (h : lineIndent st rest n = Sum.inl (t, st')) (hf : st'.errorFlag = false) :
    tokBal t + lexDebt st' = lexDebt st := by
  unfold lineIndent at h
  split at h
  · cases h
    simp only [tokBal, lexDebt]
    norm_num
    omega
  · split at h
    · cases h
    · next hlt hne =>
      split at h
      · next p hpop =>
        cases h
        obtain ⟨h1, h2⟩ := popTo_spec _ _ _ hpop
        have hge : 1 ≤ p.1 := h2 (by omega)
        simp only [tokBal, lexDebt, hp]
        norm_num
        push_cast
        omega
      · cases h
        cases hf

theorem lineIndent_inr (st : LexState) (rest : List Char) (n : Nat) (st1 : LexState)
    (h : lineIndent st rest n = Sum.inr st1) :
    st1.indentStack = st.indentStack ∧ st1.pendingDedents = st.pendingDedents ∧
      st1.errorFlag = st.errorFlag := by
  unfold lineIndent at h
  split at h
  · cases h
  · split at h
    · cases h
      exact ⟨rfl, rfl, rfl⟩
    · split at h <;> cases h

theorem lineStart_inl_balance (st : LexState) (t : Token) (st' : LexState)
    (hp : st.pendingDedents = 0)
    (h : lineStart st = Sum.inl (t, st')) (hf : st'.errorFlag = false) :
    tokBal t + lexDebt st' = lexDebt st := by
  unfold lineStart at h
  split at h
  · injection h with h1
    exact (lineEOF_balance st t st' h1).1
  · cases h
  · cases h
  · exact lineIndent_inl_balance st _ _ t st' hp h hf

theorem lineStart_inr (st : LexState) (st1 : LexState)
    (h : lineStart st = Sum.inr st1) :
    st1.indentStack = st.indentStack ∧ st1.pendingDedents = st.pendingDedents ∧
      st1.errorFlag = st.errorFlag := by
  unfold lineStart at h
  split at h
  · cases h
  · cases h
    exact ⟨rfl, rfl, rfl⟩
  · cases h
    exact ⟨rfl, rfl, rfl⟩
  · exact lineIndent_inr st _ _ st1 h

theorem scanOp_spec (st : LexState) (c : Char) (rest : List Char) (t : Token)
    (st' : LexState) (h : scanOp st c rest = (t, st')) :
    tokBal t + lexDebt st' = lexDebt st ∧ st'.errorFlag = st.errorFlag ∧
      t.type ≠ TokenType.End := by
  unfold scanOp at h
  split at h <;> cases h <;> refine ⟨?_, rfl, ?_⟩ <;>
    first
      | (simp [tokBal, lexDebt]; done)
      | (rcases charTokenType_or c with hc | hc <;> simp [tokBal, lexDebt, hc])

theorem scanTok_inl (st : LexState) (t : Token) (st' : LexState)
    (h : scanTok st = Sum.inl (t, st')) :
    tokBal t + lexDebt st' = lexDebt st ∧ st'.errorFlag = st.errorFlag ∧
      t.type ≠ TokenType.End := by
  unfold scanTok at h
  split at h
  · cases h
  · cases h
    exact ⟨by simp [tokBal, lexDebt], rfl, by simp⟩
  · cases h
  · cases h
    exact ⟨by simp [tokBal, lexDebt], rfl, by simp⟩
  · split at h
    · cases h
      split
      · exact ⟨by simp [tokBal, lexDebt], rfl, by simp⟩
      · exact ⟨by simp [tokBal, lexDebt], rfl, by simp⟩
    · split at h
      · cases h
        exact ⟨by simp [tokBal, lexDebt], rfl, by simp⟩
      · injection h with h1
        exact scanOp_spec st _ _ t st' h1

theorem scanTok_inr (st : LexState) (st1 : LexState)
    (h : scanTok st = Sum.inr st1) :
    st1.indentStack = st.indentStack ∧ st1.pendingDedents = st.pendingDedents ∧
      st1.errorFlag = st.errorFlag := by
  unfold scanTok at h
  split at h
  · cases h
    exact ⟨rfl, rfl, rfl⟩
  · cases h
  · cases h
    exact ⟨rfl, rfl, rfl⟩
  · cases h
  · split at h
    · cases h
    · split at h <;> cases h

end typthon

namespace typthon

theorem nextAux_balance (fuel : Nat) :
    ∀ (st : LexState) (t : Token) (st' : LexState),
      nextAux fuel st = (t, st') → st'.errorFlag = false →
      tokBal t + lexDebt st' = lexDebt st := by
  induction fuel with
  | zero =>
    intro st t st' h hf
    rw [nextAux] at h
    cases h
    cases hf
  | succ n ih =>
    intro st t st' h hf
    rw [nextAux] at h
    split at h
    · next herr =>
      cases h
      rw [herr] at hf
      cases hf
    · next herr =>
      split at h
      · next hpd =>
        cases h
        simp only [tokBal, lexDebt]
        norm_num
        push_cast
        omega
      · next hpd =>
        have hp0 : st.pendingDedents = 0 := by omega
        split at h
        · next r hls =>
          obtain ⟨t0, st0⟩ := r
          cases h
          split at hls
          · exact lineStart_inl_balance st t st' hp0 hls hf
          · exact (scanTok_inl st t st' hls).1
        · next st1 hls =>
          have hrec := ih st1 t st' h hf
          split at hls
          · obtain ⟨h1, h2, h3⟩ := lineStart_inr st st1 hls
            rw [hrec]
            simp [lexDebt, h1, h2]
          · obtain ⟨h1, h2, h3⟩ := scanTok_inr st st1 hls
            rw [hrec]
            simp [lexDebt, h1, h2]

theorem nextAux_end (fuel : Nat) :
    ∀ (st : LexState) (t : Token) (st' : LexState),
      nextAux fuel st = (t, st') → t.type = TokenType.End →
      st'.errorFlag = true ∨
        (st'.errorFlag = false ∧ st'.cursor = [] ∧ st'.indentStack = [] ∧
         st'.pendingDedents = 0 ∧ st.indentStack = [] ∧ st.pendingDedents = 0) := by
  induction fuel with
  | zero =>
    intro st t st' h hEnd
    rw [nextAux] at h
    cases h
    exact Or.inl rfl
  | succ n ih =>
    intro st t st' h hEnd
    rw [nextAux] at h
    split at h
    · next herr =>
      cases h
      exact Or.inl herr
    · next herr =>
      split at h
      · next hpd =>
        cases h
        cases hEnd
      · next hpd =>
        have hp0 : st.pendingDedents = 0 := by omega
        have herr' : st.errorFlag = false := by
          cases he : st.errorFlag
          · rfl
          · exact absurd he herr
        split at h
        · next r hls =>
          obtain ⟨t0, st0⟩ := r
          cases h
          split at hls
          · -- lineStart produced the End (or error) token
            unfold lineStart at hls
            split at hls
            · next heq =>
              injection hls with h1
              unfold lineEOF at h1
              split at h1
              · next hstack =>
                cases h1
                exact Or.inr ⟨herr', rfl, hstack, hp0, hstack, hp0⟩
              · cases h1
                cases hEnd
            · cases hls
            · cases hls
            · -- lineIndent: Indent, Dedent, or the error End
              unfold lineIndent at hls
              split at hls
              · cases hls
                cases hEnd
              · split at hls
                · cases hls
                · split at hls
                  · cases hls
                    cases hEnd
                  · cases hls
                    exact Or.inl rfl
          · exact absurd hEnd (scanTok_inl st t st' hls).2.2
        · next st1 hls =>
          rcases ih st1 t st' h hEnd with hcase | ⟨h1, h2, h3, h4, h5, h6⟩
          · exact Or.inl hcase
          · split at hls
            · obtain ⟨g1, g2, g3⟩ := lineStart_inr st st1 hls
              exact Or.inr ⟨h1, h2, h3, h4, by rw [← g1]; exact h5, by rw [← g2]; exact h6⟩
            · obtain ⟨g1, g2, g3⟩ := scanTok_inr st st1 hls
              exact Or.inr ⟨h1, h2, h3, h4, by rw [← g1]; exact h5, by rw [← g2]; exact h6⟩

end typthon

namespace typthon

theorem next_eq (st : LexState) :
    nextAux (2 * st.cursor.length + 4) st = ((next st).1, (next st).2) := rfl

theorem runTok_balance (fuel : Nat) :
    ∀ (st : LexState) (ts : List Token), runTok fuel st = some ts →
      listBal ts = lexDebt st := by
  induction fuel with
  | zero => intro st ts h; cases h
  | succ n ih =>
    intro st ts h
    rw [runTok] at h
    split at h
    · cases h
    · next herr =>
      have hf : (next st).2.errorFlag = false := by
        cases he : (next st).2.errorFlag
        · rfl
        · exact absurd he herr
      split at h
      · next hEnd =>
        cases h
        rcases nextAux_end (2 * st.cursor.length + 4) st (next st).1 (next st).2
            (next_eq st) hEnd with herr' | ⟨-, -, -, -, h5, h6⟩
        · rw [herr'] at hf
          cases hf
        · have hz : tokBal (next st).1 = 0 :=
            tokBal_eq_zero _ (by rw [hEnd]; simp) (by rw [hEnd]; simp)
          simp [listBal, hz, lexDebt, h5, h6]
      · next hEnd =>
        cases hrun : runTok n (next st).2 with
        | none => rw [hrun] at h; cases h
        | some ts' =>
          rw [hrun, Option.map_some'] at h
          cases h
          have hbal := nextAux_balance (2 * st.cursor.length + 4) st (next st).1 (next st).2
            (next_eq st) hf
          have hrec := ih (next st).2 ts' hrun
          simp only [listBal, hrec]
          exact hbal

theorem countType_cons (ty : TokenType) (t : Token) (ts : List Token) :
    countType ty (t :: ts) = (if t.type = ty then 1 else 0) + countType ty ts := by
  by_cases h : t.type = ty
  · simp [countType, List.filter_cons, h]
    omega
  · simp [countType, List.filter_cons, h]

theorem listBal_eq_counts (ts : List Token) :
    listBal ts = (countType TokenType.Indent ts : ℤ) - countType TokenType.Dedent ts := by
  induction ts with
  | nil => simp [listBal, countType]
  | cons t ts ih =>
    rw [listBal, countType_cons, countType_cons, ih]
    by_cases h1 : t.type = TokenType.Indent
    · simp [tokBal, h1]
      push_cast
      omega
    · by_cases h2 : t.type = TokenType.Dedent
      · simp [tokBal, h1, h2]
        push_cast
        omega
      · simp [tokBal, h1, h2]

/-- C6. Indentation round-trip: whenever the tokenizer completes without a
lexical error, the whole emitted token stream (up to `End`) contains exactly as
many `Indent` tokens as `Dedent` tokens: each pushed indentation level is
closed by exactly one synthesized `Dedent`, at a shallower line or at the end
of the source. -/
theorem indent_dedent_balanced (fuel : Nat) (source : String) (ts : List Token)
    (h : tokenize fuel source = some ts) :
    countType TokenType.Indent ts = countType TokenType.Dedent ts := by
  have hb := runTok_balance fuel (initLexState source) ts h
  have h0 : lexDebt (initLexState source) = 0 := rfl
  rw [h0, listBal_eq_counts] at hb
  omega

/-- Witness for C6 on a concrete two-level program. -/
theorem indent_dedent_balanced_witness :
    countType TokenType.Indent
        [⟨TokenType.Keyword, "if"⟩, ⟨TokenType.Identifier, "x"⟩, ⟨TokenType.Symbol, ":"⟩,
         ⟨TokenType.Newline, ""⟩, ⟨TokenType.Indent, ""⟩, ⟨TokenType.Identifier, "y"⟩,
         ⟨TokenType.Operator, "="⟩, ⟨TokenType.Number, "1"⟩, ⟨TokenType.Newline, ""⟩,
         ⟨TokenType.Dedent, ""⟩, ⟨TokenType.Identifier, "z"⟩, ⟨TokenType.Operator, "="⟩,
         ⟨TokenType.Number, "2"⟩, ⟨TokenType.Newline, ""⟩, ⟨TokenType.End, ""⟩] =
      countType TokenType.Dedent
        [⟨TokenType.Keyword, "if"⟩, ⟨TokenType.Identifier, "x"⟩, ⟨TokenType.Symbol, ":"⟩,
         ⟨TokenType.Newline, ""⟩, ⟨TokenType.Indent, ""⟩, ⟨TokenType.Identifier, "y"⟩,
         ⟨TokenType.Operator, "="⟩, ⟨TokenType.Number, "1"⟩, ⟨TokenType.Newline, ""⟩,
         ⟨TokenType.Dedent, ""⟩, ⟨TokenType.Identifier, "z"⟩, ⟨TokenType.Operator, "="⟩,
         ⟨TokenType.Number, "2"⟩, ⟨TokenType.Newline, ""⟩, ⟨TokenType.End, ""⟩] :=
  indent_dedent_balanced 40 "if x:\n    y = 1\nz = 2\n" _ (by decide)

end typthon

namespace typthon

theorem nextAux_terminal (m : Nat) :
    nextAux (m + 1) ⟨[], true, [], 0, false⟩ =
      (⟨TokenType.End, ""⟩, ⟨[], true, [], 0, false⟩) := rfl

theorem drained_next (st : LexState) (hd : Drained st) :
    (next st).1.type = TokenType.End ∧ Drained (next st).2 := by
  rcases hd with herr | ⟨herr, hcur, hstk, hpnd⟩
  · unfold next
    obtain ⟨m, hm⟩ : ∃ m, 2 * st.cursor.length + 4 = m + 1 :=
      ⟨2 * st.cursor.length + 3, by omega⟩
    rw [hm, nextAux]
    rw [if_pos herr]
    exact ⟨rfl, Or.inl herr⟩
  · obtain ⟨cur, als, stk, pnd, err⟩ := st
    simp only at herr hcur hstk hpnd
    subst herr hcur hstk hpnd
    cases als
    · exact ⟨rfl, Or.inr ⟨rfl, rfl, rfl, rfl⟩⟩
    · exact ⟨rfl, Or.inr ⟨rfl, rfl, rfl, rfl⟩⟩

/-- C7. `next` returns exactly one token per call (it is a total function into
`Token × LexState`), and `End` is absorbing: once a call returns an `End`
token, every later call returns an `End` token, whatever the number of
subsequent calls. -/
theorem next_end_absorbing (st : LexState) (t : Token) (st' : LexState)
    (h : next st = (t, st')) (hEnd : t.type = TokenType.End) :
    ∀ k, (tokenAfter k st').type = TokenType.End := by
  have hd : Drained st' := by
    rcases nextAux_end (2 * st.cursor.length + 4) st t st' h hEnd with
      herr | ⟨hf, h1, h2, h3, -, -⟩
    · exact Or.inl herr
    · exact Or.inr ⟨hf, h1, h2, h3⟩
  suffices hall : ∀ k (st0 : LexState), Drained st0 →
      (tokenAfter k st0).type = TokenType.End from fun k => hall k st' hd
  intro k
  induction k with
  | zero => intro s hs; exact (drained_next s hs).1
  | succ n ih => intro s hs; exact ih _ (drained_next s hs).2

/-- Witness for C7: tokenizing the empty source returns `End` at once, and the
third call after that still returns `End`. -/
theorem next_end_absorbing_witness :
    (tokenAfter 3 (⟨[], true, [], 0, false⟩ : LexState)).type = TokenType.End :=
  next_end_absorbing (initLexState "") ⟨TokenType.End, ""⟩ ⟨[], true, [], 0, false⟩
    (by decide) (by decide) 3

end typthon
